import Mathlib

/-!
Verification development for the `usage` disk-usage TUI (Go, `main.go`).

Shallow embedding conventions:
* The filesystem visible to the program is a pure tree `FSNode`; paths are
  lists of name components (`filepath.Join path name` becomes `path ++ [name]`,
  `filepath.Dir` becomes `List.dropLast`, the filesystem root is `[]`).
* `int64` sizes are modelled as `Int` (overflow is not modelled; the sizes the
  OS reports are nonnegative, which theorems take as an explicit hypothesis
  where they need it).
* `float64` percentages are modelled as exact rationals `ℚ`.
* The global `sizeCache` map guarded by `cacheMutex` is modelled as an
  association list threaded explicitly through the functions that use it, in
  the single-threaded order the bubbletea update loop produces.  The third
  component returned by `getCachedSize` counts full traversals performed
  (0 or 1), instrumenting the "traversal occurs at most once" property.
* `os.Stat` / `os.ReadDir` failures on the scanned path are the `none` result
  of `resolve`; per-child `entry.Info()` errors are not modelled (the model
  filesystem is fully readable).
* `sort.Slice` (unstable, comparator `Size >`) is modelled by insertion sort
  with the total relation `sizeGE`; the claims only constrain the resulting
  size order, which any correct sort satisfies.
-/

namespace Usage

mutual
/-- A node of the model filesystem: a file with a size, or a directory with a
list of named children (in host directory-listing order). -/
inductive FSNode where
  | file (size : Int)
  | dir (entries : FSEntries)

/-- A directory listing: a list of `(name, node)` pairs.  A custom list type
is used (instead of nesting `List`) so that recursion over the tree is
structural and reduces in the kernel; `FSEntries.toList` bridges to `List`. -/
inductive FSEntries where
  | nil
  | cons (name : String) (node : FSNode) (rest : FSEntries)
end

/-- View a directory listing as a list of `(name, node)` pairs. -/
def FSEntries.toList : FSEntries → List (String × FSNode)
  | .nil => []
  | .cons n node rest => (n, node) :: rest.toList

/-- Build a directory listing from a list of `(name, node)` pairs. -/
def FSEntries.ofList : List (String × FSNode) → FSEntries
  | [] => .nil
  | (n, node) :: rest => .cons n node (FSEntries.ofList rest)

/-- A path is the list of name components below the filesystem root. -/
abbrev Path := List String

/-- The size cache: an association list `path ↦ size` (`sizeCache` in the source). -/
abbrev Cache := List (Path × Int)

/-- Model of hidden-name detection: `strings.HasPrefix(name, ".")`, i.e. the
first character is `'.'`.  Stated over `String.data` so that it evaluates in
the kernel (`String.startsWith` does not whnf-reduce). -/
def isHidden (n : String) : Bool :=
  match n.data with
  | [] => false
  | c :: _ => c == '.'

/-- Look a path up in the model filesystem (`os.Stat` / `os.ReadDir` succeed
exactly when this returns `some`). -/
def resolve (root : FSNode) : Path → Option FSNode
  | [] => some root
  | c :: rest =>
      match root with
      | .file _ => none
      | .dir es =>
          match (es.toList.find? (fun e => e.1 = c)).map (fun e => e.2) with
          | some child => resolve child rest
          | none => none

/-- What one loop iteration of `calculateFullDirSize` adds for the child
named `n`: nothing if hidden, the raw size for a file, and the recursively
computed subtree size (`recVal`) for a directory. -/
def childContrib (n : String) (node : FSNode) (recVal : Int) : Int :=
  if isHidden n then 0
  else
    match node with
    | .file sz => sz
    | .dir _ => recVal

mutual
/-- `calculateFullDirSize`: full recursive size of a subtree.  On a file path
`os.ReadDir` fails and the function returns 0, as in the source. -/
def calculateFullDirSize : FSNode → Int
  | .file _ => 0
  | .dir es => calcEntries es

/-- The loop of `calculateFullDirSize` over a directory listing: skip hidden
names, add file sizes, recurse into subdirectories. -/
def calcEntries : FSEntries → Int
  | .nil => 0
  | .cons n node rest =>
      childContrib n node (calculateFullDirSize node) + calcEntries rest
end

/-- `calculateFullDirSize` applied at a path; a nonexistent path reads as an
empty listing (ReadDir error ⇒ 0). -/
def calcSizeAt (root : FSNode) (p : Path) : Int :=
  match resolve root p with
  | some n => calculateFullDirSize n
  | none => 0

/-- Association-list lookup used by the cache model (`sizeCache[path]`). -/
def cacheLookup : Cache → Path → Option Int
  | [], _ => none
  | (q, v) :: rest, p => if q = p then some v else cacheLookup rest p

/-- `getCachedSize`: return the cached size, computing and storing it on a
miss.  The `Nat` component counts the full traversals this call performed. -/
def getCachedSize (root : FSNode) (c : Cache) (p : Path) : Int × Cache × Nat :=
  match cacheLookup c p with
  | some v => (v, c, 0)
  | none =>
      let v := calcSizeAt root p
      (v, (p, v) :: c, 1)

/-- `DirEntry` from the source.  The `ParentDir` back-pointer is omitted: the
source writes it during scanning but never reads it anywhere. -/
inductive DirEntry where
  | mk (name : String) (path : Path) (size : Int) (percent : ℚ)
       (children : List DirEntry) (isDir : Bool) (level : Int)

def DirEntry.Name : DirEntry → String
  | .mk n _ _ _ _ _ _ => n

def DirEntry.Path : DirEntry → Path
  | .mk _ p _ _ _ _ _ => p

def DirEntry.Size : DirEntry → Int
  | .mk _ _ s _ _ _ _ => s

def DirEntry.Percent : DirEntry → ℚ
  | .mk _ _ _ q _ _ _ => q

def DirEntry.Children : DirEntry → List DirEntry
  | .mk _ _ _ _ ch _ _ => ch

def DirEntry.IsDir : DirEntry → Bool
  | .mk _ _ _ _ _ d _ => d

def DirEntry.Level : DirEntry → Int
  | .mk _ _ _ _ _ _ l => l

/-- Overwrite the `Percent` field (the `child.Percent = ...` assignment). -/
def setPercent (q : ℚ) : DirEntry → DirEntry
  | .mk n p s _ ch d l => .mk n p s q ch d l

/-- `filepath.Base` on a model path; the filesystem root reads as `"/"`. -/
def baseName (p : Path) : String := p.getLast?.getD "/"

/-- The comparator of both `sort.Slice` calls: descending by `Size`. -/
def sizeGE (a b : DirEntry) : Prop := b.Size ≤ a.Size

instance : DecidableRel sizeGE := fun a b => inferInstanceAs (Decidable (b.Size ≤ a.Size))

instance : IsTotal DirEntry sizeGE := ⟨fun a b => le_total b.Size a.Size⟩

instance : IsTrans DirEntry sizeGE := ⟨fun _ _ _ hab hbc => le_trans hbc hab⟩

/-- Model of `sort.Slice(xs, func(i, j) { return xs[i].Size > xs[j].Size })`. -/
def sortBySizeDesc (l : List DirEntry) : List DirEntry := List.insertionSort sizeGE l

/-- Accumulator of the child-scanning loop in `scanDirectoryWithCache`:
running total, directory children, file children, and the cache state. -/
structure ScanAcc where
  total : Int
  dirs : List DirEntry
  files : List DirEntry
  cache : Cache

/-- The `for _, e := range entries` loop of `scanDirectoryWithCache`: skip
hidden names; directories get their size from the cache and are collected;
files are collected only when `showFiles`, but always add to the total. -/
def scanChildren (root : FSNode) (path : Path) (level : Int) (showFiles : Bool) :
    List (String × FSNode) → Cache → ScanAcc
  | [], c => ⟨0, [], [], c⟩
  | (n, node) :: rest, c =>
      if isHidden n then scanChildren root path level showFiles rest c
      else
        match node with
        | .dir _ =>
            let g := getCachedSize root c (path ++ [n])
            let child := DirEntry.mk n (path ++ [n]) g.1 0 [] true (level + 1)
            let acc := scanChildren root path level showFiles rest g.2.1
            ⟨g.1 + acc.total, child :: acc.dirs, acc.files, acc.cache⟩
        | .file sz =>
            if showFiles then
              let child := DirEntry.mk n (path ++ [n]) sz 0 [] false (level + 1)
              let acc := scanChildren root path level showFiles rest c
              ⟨sz + acc.total, acc.dirs, child :: acc.files, acc.cache⟩
            else
              let acc := scanChildren root path level showFiles rest c
              ⟨sz + acc.total, acc.dirs, acc.files, acc.cache⟩

/-- `scanDirectoryWithCache`: stat the path (`none` = stat error), return a
leaf for files; for directories scan immediate children, sort the two groups
descending by size, concatenate directories then files, and annotate
percentages when the total is positive. -/
def scanDirectoryWithCache (root : FSNode) (path : Path) (level : Int)
    (showFiles : Bool) (c : Cache) : Option (DirEntry × Cache) :=
  match resolve root path with
  | none => none
  | some (.file sz) => some (DirEntry.mk (baseName path) path sz 0 [] false level, c)
  | some (.dir entries) =>
      let acc := scanChildren root path level showFiles entries.toList c
      let children0 := sortBySizeDesc acc.dirs ++ sortBySizeDesc acc.files
      let children :=
        if 0 < acc.total then
          children0.map (fun ch => setPercent ((ch.Size : ℚ) / (acc.total : ℚ) * 100) ch)
        else children0
      some (DirEntry.mk (baseName path) path acc.total 0 children true level, acc.cache)

/-- `loadDirectory`: scan at level 0 and set the root's percent to 100. -/
def loadDirectory (root : FSNode) (path : Path) (showFiles : Bool) (c : Cache) :
    Option (DirEntry × Cache) :=
  match scanDirectoryWithCache root path 0 showFiles c with
  | none => none
  | some (e, c2) => some (setPercent 100 e, c2)

/-- `filepath.Dir` on a model path: drop the last component.  The fixed point
`Dir(p) == p` (Go: `"/"` or `"."`) is exactly the empty path here. -/
def pdir (p : Path) : Path := p.dropLast

/-- The `Model` struct from the source.  `Error` is an optional message
(`error` interface); `RootDir` is a `DirEntry` value (never `nil` on the
execution paths the claims are about). -/
structure Model where
  RootDir : DirEntry
  CursorPos : Int
  ScrollPos : Int
  VisibleDirs : List DirEntry
  Error : Option String
  Loading : Bool
  LoadingPath : Path
  SpinnerIdx : Int
  ShowFiles : Bool
  Height : Int

/-- The scroll adjustment of `ensureCursorVisible`: pull the scroll to the
cursor when the cursor is above the window, push it to
`cursor - maxVisible + 1` when the cursor is at or below the window's end,
then clamp into `[0, max(len - maxVisible, 0)]`. -/
def clampScroll (cursor scroll mv len : Int) : Int :=
  let s1 : Int :=
    if cursor < scroll then cursor
    else if scroll + mv ≤ cursor then cursor - mv + 1
    else scroll
  let s2 : Int := if s1 < 0 then 0 else s1
  let maxScroll : Int := if len - mv < 0 then 0 else len - mv
  if maxScroll < s2 then maxScroll else s2

/-- `ensureCursorVisible`: empty list returns immediately; otherwise adjust
the scroll via `clampScroll` with `maxVisible = Height - 2`. -/
def ensureCursorVisible (m : Model) : Model :=
  if m.VisibleDirs.length = 0 then m
  else
    { m with ScrollPos :=
        clampScroll m.CursorPos m.ScrollPos (m.Height - 2) (m.VisibleDirs.length : Int) }

/-- `updateVisibleDirs`: prepend the synthetic `".."` entry when the root is
not the filesystem root, then append the root's children (files only when
`ShowFiles`); reset cursor and scroll to 0. -/
def updateVisibleDirs (m : Model) : Model :=
  let base : List DirEntry :=
    if pdir m.RootDir.Path ≠ m.RootDir.Path then
      [DirEntry.mk ".." (pdir m.RootDir.Path) 0 0 [] true 0]
    else []
  let vis := base ++ m.RootDir.Children.filter (fun c => c.IsDir || m.ShowFiles)
  { m with VisibleDirs := vis, CursorPos := 0, ScrollPos := 0 }

/-- The messages `Model.Update` dispatches on.  `loadingComplete` carries the
two fields of `LoadingCompleteMsg`; when `err` is `some` the `dir` field is
ignored, as in the source. -/
inductive Msg where
  | windowSize (height : Int)
  | loading (path : Path)
  | loadingComplete (dir : DirEntry) (err : Option String)
  | spinner
  | key (s : String)

/-- The commands `Model.Update` returns: `nil`, `tea.Quit`, the actual
directory load (`m.loadDirectory`), a closure that emits a `LoadingMsg`, the
file-execution command, and the spinner tick. -/
inductive Cmd where
  | none
  | quit
  | loadDir (path : Path)
  | emitLoading (path : Path)
  | execFile (path : Path)
  | spinner

/-- The `"enter"` key branch: index the visible list at the cursor (the
source indexes unconditionally after `CursorPos < len`; a negative cursor
would panic in Go and yields `Cmd.none` here — no claim exercises it). -/
def enterKey (m : Model) : Model × Cmd :=
  if m.CursorPos < (m.VisibleDirs.length : Int) then
    if h : 0 ≤ m.CursorPos ∧ m.CursorPos.toNat < m.VisibleDirs.length then
      let d := m.VisibleDirs.get ⟨m.CursorPos.toNat, h.2⟩
      if d.IsDir then
        if d.Name = ".." then
          if pdir m.RootDir.Path ≠ m.RootDir.Path then
            (m, Cmd.emitLoading (pdir m.RootDir.Path))
          else (m, Cmd.none)
        else (m, Cmd.emitLoading d.Path)
      else (m, Cmd.execFile d.Path)
    else (m, Cmd.none)
  else (m, Cmd.none)

/-- The `tea.KeyMsg` branch of `Model.Update` when not loading. -/
def keyUpdate (m : Model) (s : String) : Model × Cmd :=
  if s = "q" ∨ s = "ctrl+c" then (m, Cmd.quit)
  else if s = "up" ∨ s = "k" then
    (if 0 < m.CursorPos then ensureCursorVisible { m with CursorPos := m.CursorPos - 1 }
     else m, Cmd.none)
  else if s = "down" ∨ s = "j" then
    (if m.CursorPos < (m.VisibleDirs.length : Int) - 1 then
       ensureCursorVisible { m with CursorPos := m.CursorPos + 1 }
     else m, Cmd.none)
  else if s = "enter" then enterKey m
  else if s = "backspace" ∨ s = "h" then
    if pdir m.RootDir.Path ≠ m.RootDir.Path then
      (m, Cmd.emitLoading (pdir m.RootDir.Path))
    else (m, Cmd.none)
  else if s = "home" ∨ s = "g" then
    (ensureCursorVisible { m with CursorPos := 0 }, Cmd.none)
  else if s = "end" ∨ s = "G" then
    (if 0 < m.VisibleDirs.length then
       ensureCursorVisible { m with CursorPos := (m.VisibleDirs.length : Int) - 1 }
     else m, Cmd.none)
  else if s = "pgup" then
    let maxVisible : Int := m.Height - 2
    let c1 := m.CursorPos - maxVisible
    let c2 := if c1 < 0 then 0 else c1
    (ensureCursorVisible { m with CursorPos := c2 }, Cmd.none)
  else if s = "pgdown" then
    let maxVisible : Int := m.Height - 2
    let c1 := m.CursorPos + maxVisible
    let c2 := if (m.VisibleDirs.length : Int) ≤ c1 then (m.VisibleDirs.length : Int) - 1 else c1
    (ensureCursorVisible { m with CursorPos := c2 }, Cmd.none)
  else (m, Cmd.none)

/-- `Model.Update`. -/
def update (m : Model) : Msg → Model × Cmd
  | .windowSize h => (ensureCursorVisible { m with Height := h }, Cmd.none)
  | .loading p => ({ m with Loading := true, LoadingPath := p }, Cmd.loadDir p)
  | .loadingComplete dir err =>
      match err with
      | some e => ({ m with Loading := false, Error := some e }, Cmd.none)
      | none =>
          let m1 := updateVisibleDirs { m with Loading := false, RootDir := dir }
          (ensureCursorVisible { m1 with CursorPos := 0, ScrollPos := 0 }, Cmd.none)
  | .spinner =>
      if m.Loading then ({ m with SpinnerIdx := (m.SpinnerIdx + 1) % 4 }, Cmd.spinner)
      else (m, Cmd.none)
  | .key s =>
      if m.Loading then
        if s = "q" ∨ s = "ctrl+c" then (m, Cmd.quit) else (m, Cmd.none)
      else keyUpdate m s

/-- Fold a message sequence through `update`, keeping the model. -/
def applyMsgs (m : Model) : List Msg → Model
  | [] => m
  | msg :: rest => applyMsgs (update m msg).1 rest

/-- Which screen `Model.View` renders: the error screen, the loading screen,
or the listing.  (The string/styling details of `View` are out of scope; only
the top-level dispatch order — error first, then loading — is modelled.) -/
inductive Screen where
  | errorScreen (msg : String)
  | loadingScreen (path : Path)
  | listing (visible : List DirEntry) (cursor scroll height : Int)

/-- The dispatch at the top of `Model.View`. -/
def view (m : Model) : Screen :=
  match m.Error with
  | some e => Screen.errorScreen e
  | none =>
      if m.Loading then Screen.loadingScreen m.LoadingPath
      else Screen.listing m.VisibleDirs m.CursorPos m.ScrollPos m.Height

/-- The error message `view` renders, if any. -/
def Screen.shownError : Screen → Option String
  | .errorScreen e => some e
  | _ => none

/-! ### Basic lemmas about the embedded definitions -/

@[simp] theorem DirEntry.Name_mk (n p s q ch d l) :
    (DirEntry.mk n p s q ch d l).Name = n := rfl

@[simp] theorem DirEntry.Path_mk (n p s q ch d l) :
    (DirEntry.mk n p s q ch d l).Path = p := rfl

@[simp] theorem DirEntry.Size_mk (n p s q ch d l) :
    (DirEntry.mk n p s q ch d l).Size = s := rfl

@[simp] theorem DirEntry.Percent_mk (n p s q ch d l) :
    (DirEntry.mk n p s q ch d l).Percent = q := rfl

@[simp] theorem DirEntry.Children_mk (n p s q ch d l) :
    (DirEntry.mk n p s q ch d l).Children = ch := rfl

@[simp] theorem DirEntry.IsDir_mk (n p s q ch d l) :
    (DirEntry.mk n p s q ch d l).IsDir = d := rfl

@[simp] theorem DirEntry.Level_mk (n p s q ch d l) :
    (DirEntry.mk n p s q ch d l).Level = l := rfl

@[simp] theorem Size_setPercent (q : ℚ) (e : DirEntry) : (setPercent q e).Size = e.Size := by
  cases e <;> rfl

@[simp] theorem Percent_setPercent (q : ℚ) (e : DirEntry) : (setPercent q e).Percent = q := by
  cases e <;> rfl

@[simp] theorem IsDir_setPercent (q : ℚ) (e : DirEntry) : (setPercent q e).IsDir = e.IsDir := by
  cases e <;> rfl

@[simp] theorem Level_setPercent (q : ℚ) (e : DirEntry) : (setPercent q e).Level = e.Level := by
  cases e <;> rfl

@[simp] theorem Name_setPercent (q : ℚ) (e : DirEntry) : (setPercent q e).Name = e.Name := by
  cases e <;> rfl

@[simp] theorem Path_setPercent (q : ℚ) (e : DirEntry) : (setPercent q e).Path = e.Path := by
  cases e <;> rfl

@[simp] theorem Children_setPercent (q : ℚ) (e : DirEntry) :
    (setPercent q e).Children = e.Children := by
  cases e <;> rfl

/-- `filepath.Dir(p) == p` happens exactly at the filesystem root. -/
theorem pdir_eq_self_iff (p : Path) : pdir p = p ↔ p = [] := by
  constructor
  · intro h
    by_contra hne
    have hlen := congrArg List.length h
    rw [show pdir p = p.dropLast from rfl, List.length_dropLast] at hlen
    have hpos : 0 < p.length := List.length_pos.mpr hne
    omega
  · intro h; subst h; rfl

/-- Looking up a key a later `getCachedSize` call did not insert is unchanged. -/
theorem cacheLookup_getCachedSize (root : FSNode) (c : Cache) (p q : Path) (v : Int)
    (h : cacheLookup c p = some v) :
    cacheLookup (getCachedSize root c q).2.1 p = some v := by
  unfold getCachedSize
  cases hq : cacheLookup c q with
  | some w => simpa using h
  | none =>
      simp only [cacheLookup]
      by_cases hqp : q = p
      · subst hqp; rw [hq] at h; exact absurd h (by simp)
      · simpa [hqp] using h

/-! ### Unfolding and structural lemmas for the child-scanning loop -/

/-- Sum of the sizes of the non-hidden plain files in a listing — the bytes
that enter `totalSize` without being materialized when `showFiles` is false. -/
def nonHiddenFilesTotal : List (String × FSNode) → Int
  | [] => 0
  | (n, node) :: rest =>
      (if isHidden n then 0
       else match node with
         | .file sz => sz
         | .dir _ => 0) + nonHiddenFilesTotal rest

theorem scanChildren_cons_hidden (root : FSNode) (path : Path) (level : Int) (sf : Bool)
    (n : String) (node : FSNode) (rest : List (String × FSNode)) (c : Cache)
    (hh : isHidden n = true) :
    scanChildren root path level sf ((n, node) :: rest) c =
      scanChildren root path level sf rest c := by
  simp [scanChildren, hh]

theorem scanChildren_cons_dir (root : FSNode) (path : Path) (level : Int) (sf : Bool)
    (n : String) (es2 : FSEntries) (rest : List (String × FSNode)) (c : Cache)
    (hh : isHidden n = false) :
    scanChildren root path level sf ((n, FSNode.dir es2) :: rest) c =
      { total := (getCachedSize root c (path ++ [n])).1 +
          (scanChildren root path level sf rest (getCachedSize root c (path ++ [n])).2.1).total,
        dirs := DirEntry.mk n (path ++ [n]) (getCachedSize root c (path ++ [n])).1 0 [] true
            (level + 1) ::
          (scanChildren root path level sf rest (getCachedSize root c (path ++ [n])).2.1).dirs,
        files := (scanChildren root path level sf rest (getCachedSize root c (path ++ [n])).2.1).files,
        cache :=
          (scanChildren root path level sf rest (getCachedSize root c (path ++ [n])).2.1).cache } := by
  simp [scanChildren, hh]

theorem scanChildren_cons_file (root : FSNode) (path : Path) (level : Int) (sf : Bool)
    (n : String) (sz : Int) (rest : List (String × FSNode)) (c : Cache)
    (hh : isHidden n = false) :
    scanChildren root path level sf ((n, FSNode.file sz) :: rest) c =
      { total := sz + (scanChildren root path level sf rest c).total,
        dirs := (scanChildren root path level sf rest c).dirs,
        files := (if sf then [DirEntry.mk n (path ++ [n]) sz 0 [] false (level + 1)] else []) ++
          (scanChildren root path level sf rest c).files,
        cache := (scanChildren root path level sf rest c).cache } := by
  cases sf <;> simp [scanChildren, hh]

/-- Every entry the scanning loop collects carries `IsDir` matching its group,
level `level + 1`, percent 0, no children, and a non-hidden name. -/
theorem scanChildren_mem (root : FSNode) (path : Path) (level : Int) (sf : Bool)
    (es : List (String × FSNode)) : ∀ c : Cache,
    (∀ x ∈ (scanChildren root path level sf es c).dirs,
        x.IsDir = true ∧ x.Level = level + 1 ∧ x.Percent = 0 ∧ x.Children = [] ∧
          isHidden x.Name = false) ∧
    (∀ x ∈ (scanChildren root path level sf es c).files,
        x.IsDir = false ∧ x.Level = level + 1 ∧ x.Percent = 0 ∧ x.Children = [] ∧
          isHidden x.Name = false) := by
  induction es with
  | nil =>
      intro c
      constructor
      · intro x hx; rw [scanChildren] at hx; cases hx
      · intro x hx; rw [scanChildren] at hx; cases hx
  | cons hd rest ih =>
      intro c
      obtain ⟨n, node⟩ := hd
      cases hh : isHidden n with
      | true =>
          rw [scanChildren_cons_hidden root path level sf n node rest c hh]
          exact ih c
      | false =>
          cases node with
          | dir es2 =>
              rw [scanChildren_cons_dir root path level sf n es2 rest c hh]
              refine ⟨?_, (ih _).2⟩
              intro x hx
              rcases List.mem_cons.mp hx with hx | hx
              · subst hx; exact ⟨rfl, rfl, rfl, rfl, hh⟩
              · exact (ih _).1 x hx
          | file sz =>
              rw [scanChildren_cons_file root path level sf n sz rest c hh]
              refine ⟨(ih c).1, ?_⟩
              intro x hx
              rcases List.mem_append.mp hx with hx | hx
              · cases sf with
                | true =>
                    simp only [if_pos] at hx
                    rcases List.mem_singleton.mp (by simpa using hx) with hx
                    subst hx; exact ⟨rfl, rfl, rfl, rfl, hh⟩
                | false => simp at hx
              · exact (ih c).2 x hx

/-- The running total the scanning loop computes decomposes as the sizes of
the collected directory children plus the collected file children plus (when
files are not shown) the sizes of the non-hidden files of the listing. -/
theorem scanChildren_total_eq (root : FSNode) (path : Path) (level : Int) (sf : Bool)
    (es : List (String × FSNode)) : ∀ c : Cache,
    (scanChildren root path level sf es c).total =
      ((scanChildren root path level sf es c).dirs.map DirEntry.Size).sum +
      ((scanChildren root path level sf es c).files.map DirEntry.Size).sum +
      (if sf then 0 else nonHiddenFilesTotal es) := by
  induction es with
  | nil =>
      intro c
      rw [scanChildren]
      simp [nonHiddenFilesTotal]
  | cons hd rest ih =>
      intro c
      obtain ⟨n, node⟩ := hd
      cases hh : isHidden n with
      | true =>
          rw [scanChildren_cons_hidden root path level sf n node rest c hh]
          have hnf : nonHiddenFilesTotal ((n, node) :: rest) = nonHiddenFilesTotal rest := by
            simp [nonHiddenFilesTotal, hh]
          rw [hnf]
          exact ih c
      | false =>
          cases node with
          | dir es2 =>
              rw [scanChildren_cons_dir root path level sf n es2 rest c hh]
              have hnf : nonHiddenFilesTotal ((n, FSNode.dir es2) :: rest) =
                  nonHiddenFilesTotal rest := by
                simp [nonHiddenFilesTotal, hh]
              have := ih (getCachedSize root c (path ++ [n])).2.1
              simp only [List.map_cons, List.sum_cons, DirEntry.Size_mk, hnf]
              cases sf <;> simp_all <;> omega
          | file sz =>
              rw [scanChildren_cons_file root path level sf n sz rest c hh]
              have hnf : nonHiddenFilesTotal ((n, FSNode.file sz) :: rest) =
                  sz + nonHiddenFilesTotal rest := by
                simp [nonHiddenFilesTotal, hh]
              have := ih c
              cases sf <;> simp_all <;> omega

/-- Sorting preserves the multiset of sizes, hence their sum. -/
theorem sortBySizeDesc_size_sum (l : List DirEntry) :
    ((sortBySizeDesc l).map DirEntry.Size).sum = (l.map DirEntry.Size).sum :=
  ((List.perm_insertionSort sizeGE l).map DirEntry.Size).sum_eq

theorem mem_sortBySizeDesc {l : List DirEntry} {x : DirEntry} :
    x ∈ sortBySizeDesc l ↔ x ∈ l :=
  List.mem_insertionSort sizeGE

theorem sortBySizeDesc_sorted (l : List DirEntry) : List.Sorted sizeGE (sortBySizeDesc l) :=
  List.sorted_insertionSort sizeGE l

/-- Mapping a percent overwrite over a list preserves descending-size order. -/
theorem sorted_map_setPercent (f : DirEntry → ℚ) {l : List DirEntry}
    (hl : List.Sorted sizeGE l) :
    List.Sorted sizeGE (l.map (fun ch => setPercent (f ch) ch)) := by
  rw [List.Sorted, List.pairwise_map]
  exact hl.imp (fun h => by simpa [sizeGE] using h)

/-- Unfolding `scanDirectoryWithCache` on a directory path. -/
theorem scanDirectoryWithCache_dir (root : FSNode) (p : Path) (l : Int) (sf : Bool)
    (c : Cache) (es : FSEntries) (hres : resolve root p = some (FSNode.dir es)) :
    scanDirectoryWithCache root p l sf c =
      some (DirEntry.mk (baseName p) p (scanChildren root p l sf es.toList c).total 0
        (if 0 < (scanChildren root p l sf es.toList c).total then
          (sortBySizeDesc (scanChildren root p l sf es.toList c).dirs ++
            sortBySizeDesc (scanChildren root p l sf es.toList c).files).map
            (fun ch => setPercent
              ((ch.Size : ℚ) / ((scanChildren root p l sf es.toList c).total : ℚ) * 100) ch)
        else
          sortBySizeDesc (scanChildren root p l sf es.toList c).dirs ++
            sortBySizeDesc (scanChildren root p l sf es.toList c).files)
        true l,
        (scanChildren root p l sf es.toList c).cache) := by
  rw [scanDirectoryWithCache, hres]

/-- Unfolding `scanDirectoryWithCache` on a file path. -/
theorem scanDirectoryWithCache_file (root : FSNode) (p : Path) (l : Int) (sf : Bool)
    (c : Cache) (sz : Int) (hres : resolve root p = some (FSNode.file sz)) :
    scanDirectoryWithCache root p l sf c =
      some (DirEntry.mk (baseName p) p sz 0 [] false l, c) := by
  rw [scanDirectoryWithCache, hres]

/-- Every child of a scanned directory comes (up to a percent overwrite) from
one of the two groups the scanning loop collected. -/
theorem mem_scan_children (root : FSNode) (p : Path) (l : Int) (sf : Bool) (c : Cache)
    (es : FSEntries) (e : DirEntry) (c2 : Cache)
    (hres : resolve root p = some (FSNode.dir es))
    (hs : scanDirectoryWithCache root p l sf c = some (e, c2))
    (P : DirEntry → Prop)
    (hP : ∀ q x, P x → P (setPercent q x))
    (hdirs : ∀ x ∈ (scanChildren root p l sf es.toList c).dirs, P x)
    (hfiles : ∀ x ∈ (scanChildren root p l sf es.toList c).files, P x) :
    ∀ ch ∈ e.Children, P ch := by
  rw [scanDirectoryWithCache_dir root p l sf c es hres] at hs
  simp only [Option.some.injEq, Prod.mk.injEq] at hs
  obtain ⟨he, _⟩ := hs
  subst he
  intro ch hch
  rw [DirEntry.Children_mk] at hch
  have hbase : ∀ x ∈ sortBySizeDesc (scanChildren root p l sf es.toList c).dirs ++
      sortBySizeDesc (scanChildren root p l sf es.toList c).files, P x := by
    intro x hx
    rcases List.mem_append.mp hx with hx | hx
    · exact hdirs x (mem_sortBySizeDesc.mp hx)
    · exact hfiles x (mem_sortBySizeDesc.mp hx)
  by_cases ht : 0 < (scanChildren root p l sf es.toList c).total
  · rw [if_pos ht] at hch
    rcases List.mem_map.mp hch with ⟨y, hy, rfl⟩
    exact hP _ y (hbase y hy)
  · rw [if_neg ht] at hch
    exact hbase ch hch

/-! ### Concrete objects used by witnesses and counterexamples -/

/-- Root listing of a small concrete filesystem: two directories and a file,
plus a hidden file. -/
def sampleFSEntries : FSEntries :=
  FSEntries.ofList
    [("a", FSNode.dir (FSEntries.ofList [("f1", FSNode.file 200), ("f2", FSNode.file 100)])),
     ("b", FSNode.dir (FSEntries.ofList [("g1", FSNode.file 100)])),
     ("c", FSNode.file 25),
     (".hid", FSNode.file 1000)]

/-- A small concrete filesystem used by witnesses. -/
def sampleFS : FSNode := FSNode.dir sampleFSEntries

/-- The scan of `sampleFS` shared by several witnesses. -/
def wScan : Option (DirEntry × Cache) := scanDirectoryWithCache sampleFS [] 0 true []

/-- The root entry that scan produces. -/
def wEntry : DirEntry := (wScan.getD (DirEntry.mk "" [] 0 0 [] false 0, [])).1

/-- The cache state that scan produces. -/
def wCache : Cache := (wScan.getD (DirEntry.mk "" [] 0 0 [] false 0, [])).2

/-- A concrete child entry. -/
def sampleEntry : DirEntry := DirEntry.mk "a" ["r", "a"] 5 0 [] false 1

/-- A concrete model used by several witnesses. -/
def sampleModel : Model where
  RootDir := DirEntry.mk "r" ["r"] 5 100 [sampleEntry] true 0
  CursorPos := 0
  ScrollPos := 0
  VisibleDirs := [DirEntry.mk ".." [] 0 0 [] true 0, sampleEntry]
  Error := none
  Loading := false
  LoadingPath := []
  SpinnerIdx := 0
  ShowFiles := true
  Height := 20

/-! ### C1 — a scanned directory's size decomposes over its children -/

/-- Sum of the `Size`s of both sorted groups equals the sum over the unsorted
groups. -/
theorem size_sum_append_sorted (D F : List DirEntry) :
    ((sortBySizeDesc D ++ sortBySizeDesc F).map DirEntry.Size).sum =
      (D.map DirEntry.Size).sum + (F.map DirEntry.Size).sum := by
  rw [List.map_append, List.sum_append, sortBySizeDesc_size_sum, sortBySizeDesc_size_sum]

/-- C1: for every directory successfully scanned, the entry's size equals the
sum of the sizes of its materialized children plus (when `showFiles` is
false) the sizes of the non-hidden files excluded from display; hidden
entries contribute nothing (every materialized child is non-hidden, and the
excluded-files sum ranges over non-hidden files only). -/
theorem scan_size_decomposition (root : FSNode) (p : Path) (l : Int) (sf : Bool) (c : Cache)
    (es : FSEntries) (e : DirEntry) (c2 : Cache)
    (hres : resolve root p = some (FSNode.dir es))
    (hs : scanDirectoryWithCache root p l sf c = some (e, c2)) :
    e.Size = (e.Children.map DirEntry.Size).sum +
      (if sf then 0 else nonHiddenFilesTotal es.toList) ∧
    ∀ ch ∈ e.Children, isHidden ch.Name = false := by
  constructor
  · rw [scanDirectoryWithCache_dir root p l sf c es hres] at hs
    simp only [Option.some.injEq, Prod.mk.injEq] at hs
    obtain ⟨he, _⟩ := hs
    subst he
    rw [DirEntry.Size_mk, DirEntry.Children_mk]
    have hsum : ((if 0 < (scanChildren root p l sf es.toList c).total then
        (sortBySizeDesc (scanChildren root p l sf es.toList c).dirs ++
          sortBySizeDesc (scanChildren root p l sf es.toList c).files).map
          (fun ch => setPercent
            ((ch.Size : ℚ) / ((scanChildren root p l sf es.toList c).total : ℚ) * 100) ch)
      else
        sortBySizeDesc (scanChildren root p l sf es.toList c).dirs ++
          sortBySizeDesc (scanChildren root p l sf es.toList c).files).map DirEntry.Size).sum =
        ((scanChildren root p l sf es.toList c).dirs.map DirEntry.Size).sum +
        ((scanChildren root p l sf es.toList c).files.map DirEntry.Size).sum := by
      by_cases ht : 0 < (scanChildren root p l sf es.toList c).total
      · rw [if_pos ht, List.map_map]
        rw [show (DirEntry.Size ∘ fun ch => setPercent
            ((ch.Size : ℚ) / ((scanChildren root p l sf es.toList c).total : ℚ) * 100) ch)
          = DirEntry.Size from funext fun x => by simp]
        exact size_sum_append_sorted _ _
      · rw [if_neg ht]
        exact size_sum_append_sorted _ _
    rw [hsum]
    exact scanChildren_total_eq root p l sf es.toList c
  · intro ch hch
    refine mem_scan_children root p l sf c es e c2 hres hs
      (fun x => isHidden x.Name = false) (fun q x hx => by simpa using hx) ?_ ?_ ch hch
    · intro x hx
      exact ((scanChildren_mem root p l sf es.toList c).1 x hx).2.2.2.2
    · intro x hx
      exact ((scanChildren_mem root p l sf es.toList c).2 x hx).2.2.2.2

/-- Witness for C1 at the concrete filesystem `sampleFS`. -/
theorem scan_size_decomposition_witness :
    resolve sampleFS [] = some (FSNode.dir sampleFSEntries) ∧
    scanDirectoryWithCache sampleFS [] 0 true [] = some (wEntry, wCache) ∧
    (wEntry.Size = (wEntry.Children.map DirEntry.Size).sum +
        (if true then 0 else nonHiddenFilesTotal sampleFSEntries.toList) ∧
      ∀ ch ∈ wEntry.Children, isHidden ch.Name = false) :=
  ⟨rfl, rfl, scan_size_decomposition sampleFS [] 0 true [] sampleFSEntries wEntry wCache rfl rfl⟩

/-! ### C3 — children are grouped (directories first) and sorted descending -/

/-- C3: the children of a scanned directory split as a block of directory
children followed by a block of file children, each block sorted descending
by size (`sizeGE x y` means `y.Size ≤ x.Size`). -/
theorem scan_children_grouped_sorted (root : FSNode) (p : Path) (l : Int) (sf : Bool)
    (c : Cache) (e : DirEntry) (c2 : Cache)
    (hs : scanDirectoryWithCache root p l sf c = some (e, c2))
    (hd : e.IsDir = true) :
    ∃ ds fl, e.Children = ds ++ fl ∧
      (∀ x ∈ ds, x.IsDir = true) ∧ (∀ x ∈ fl, x.IsDir = false) ∧
      List.Sorted sizeGE ds ∧ List.Sorted sizeGE fl := by
  cases hres : resolve root p with
  | none => rw [scanDirectoryWithCache, hres] at hs; cases hs
  | some node =>
      cases node with
      | file sz =>
          rw [scanDirectoryWithCache_file root p l sf c sz hres] at hs
          simp only [Option.some.injEq, Prod.mk.injEq] at hs
          obtain ⟨he, _⟩ := hs
          subst he
          rw [DirEntry.IsDir_mk] at hd
          cases hd
      | dir es =>
          rw [scanDirectoryWithCache_dir root p l sf c es hres] at hs
          simp only [Option.some.injEq, Prod.mk.injEq] at hs
          obtain ⟨he, _⟩ := hs
          subst he
          rw [DirEntry.Children_mk]
          have hmd := (scanChildren_mem root p l sf es.toList c).1
          have hmf := (scanChildren_mem root p l sf es.toList c).2
          by_cases ht : 0 < (scanChildren root p l sf es.toList c).total
          · rw [if_pos ht]
            refine ⟨(sortBySizeDesc (scanChildren root p l sf es.toList c).dirs).map
                (fun ch => setPercent
                  ((ch.Size : ℚ) / ((scanChildren root p l sf es.toList c).total : ℚ) * 100) ch),
              (sortBySizeDesc (scanChildren root p l sf es.toList c).files).map
                (fun ch => setPercent
                  ((ch.Size : ℚ) / ((scanChildren root p l sf es.toList c).total : ℚ) * 100) ch),
              by rw [List.map_append], ?_, ?_, ?_, ?_⟩
            · intro x hx
              rcases List.mem_map.mp hx with ⟨y, hy, rfl⟩
              simpa using (hmd y (mem_sortBySizeDesc.mp hy)).1
            · intro x hx
              rcases List.mem_map.mp hx with ⟨y, hy, rfl⟩
              simpa using (hmf y (mem_sortBySizeDesc.mp hy)).1
            · exact sorted_map_setPercent _ (sortBySizeDesc_sorted _)
            · exact sorted_map_setPercent _ (sortBySizeDesc_sorted _)
          · rw [if_neg ht]
            refine ⟨sortBySizeDesc (scanChildren root p l sf es.toList c).dirs,
              sortBySizeDesc (scanChildren root p l sf es.toList c).files, rfl, ?_, ?_,
              sortBySizeDesc_sorted _, sortBySizeDesc_sorted _⟩
            · intro x hx
              exact (hmd x (mem_sortBySizeDesc.mp hx)).1
            · intro x hx
              exact (hmf x (mem_sortBySizeDesc.mp hx)).1

/-- Witness for C3 at the concrete filesystem `sampleFS`. -/
theorem scan_children_grouped_sorted_witness :
    scanDirectoryWithCache sampleFS [] 0 true [] = some (wEntry, wCache) ∧
    wEntry.IsDir = true ∧
    ∃ ds fl, wEntry.Children = ds ++ fl ∧
      (∀ x ∈ ds, x.IsDir = true) ∧ (∀ x ∈ fl, x.IsDir = false) ∧
      List.Sorted sizeGE ds ∧ List.Sorted sizeGE fl :=
  ⟨rfl, rfl, scan_children_grouped_sorted sampleFS [] 0 true [] wEntry wCache rfl rfl⟩

/-! ### C8 — depth of listed entries (corrected: direct children have depth 1) -/

/-- Children of a scan at level `l` carry level `l + 1`; the scanned entry
itself carries `l`. -/
theorem scan_levels (root : FSNode) (p : Path) (l : Int) (sf : Bool) (c : Cache)
    (e : DirEntry) (c2 : Cache)
    (hs : scanDirectoryWithCache root p l sf c = some (e, c2)) :
    e.Level = l ∧ ∀ ch ∈ e.Children, ch.Level = l + 1 := by
  cases hres : resolve root p with
  | none => rw [scanDirectoryWithCache, hres] at hs; cases hs
  | some node =>
      cases node with
      | file sz =>
          rw [scanDirectoryWithCache_file root p l sf c sz hres] at hs
          simp only [Option.some.injEq, Prod.mk.injEq] at hs
          obtain ⟨he, _⟩ := hs
          subst he
          exact ⟨rfl, by intro ch hch; cases hch⟩
      | dir es =>
          have he : e.Level = l := by
            rw [scanDirectoryWithCache_dir root p l sf c es hres] at hs
            simp only [Option.some.injEq, Prod.mk.injEq] at hs
            obtain ⟨he, _⟩ := hs
            subst he
            rfl
          refine ⟨he, ?_⟩
          refine mem_scan_children root p l sf c es e c2 hres hs
            (fun x => x.Level = l + 1) (fun q x hx => by simpa using hx) ?_ ?_
          · intro x hx
            exact ((scanChildren_mem root p l sf es.toList c).1 x hx).2.1
          · intro x hx
            exact ((scanChildren_mem root p l sf es.toList c).2 x hx).2.1

/-- C8 counterexample: scanning a root with a single 5-byte file child (via
`loadDirectory`, level 0) gives that direct child depth 1, not depth 0 as the
claim states. -/
theorem load_levels_counterexample :
    (loadDirectory (FSNode.dir (FSEntries.ofList [("a", FSNode.file 5)])) [] true []).map
        (fun r => r.1.Children.map DirEntry.Level) = some [1] ∧
    (loadDirectory (FSNode.dir (FSEntries.ofList [("a", FSNode.file 5)])) [] true []).map
        (fun r => r.1.Children.map DirEntry.Level) ≠ some [0] := by
  constructor
  · decide
  · decide

/-- C8 amended: in the listing produced by loading the active root (level 0),
the root entry has depth 0 and every direct child of the root has depth 1 —
the depth field counts the root as level 0 and its direct children as 1. -/
theorem load_levels (root : FSNode) (p : Path) (sf : Bool) (c : Cache)
    (e : DirEntry) (c2 : Cache)
    (hs : loadDirectory root p sf c = some (e, c2)) :
    e.Level = 0 ∧ ∀ ch ∈ e.Children, ch.Level = 1 := by
  unfold loadDirectory at hs
  cases hscan : scanDirectoryWithCache root p 0 sf c with
  | none => rw [hscan] at hs; cases hs
  | some r =>
      obtain ⟨r1, r2⟩ := r
      rw [hscan] at hs
      simp only [Option.some.injEq, Prod.mk.injEq] at hs
      obtain ⟨he, _⟩ := hs
      subst he
      have h := scan_levels root p 0 sf c r1 r2 hscan
      refine ⟨by simpa using h.1, ?_⟩
      intro ch hch
      rw [Children_setPercent] at hch
      have := h.2 ch hch
      omega

/-- Witness for the amended C8 at a concrete load. -/
theorem load_levels_witness :
    loadDirectory sampleFS [] true [] = some (setPercent 100 wEntry, wCache) ∧
    ((setPercent 100 wEntry).Level = 0 ∧
      ∀ ch ∈ (setPercent 100 wEntry).Children, ch.Level = 1) := by
  have hld : loadDirectory sampleFS [] true [] = some (setPercent 100 wEntry, wCache) := by
    unfold loadDirectory
    rw [show scanDirectoryWithCache sampleFS [] 0 true [] = some (wEntry, wCache) from rfl]
  exact ⟨hld, load_levels sampleFS [] true [] (setPercent 100 wEntry) wCache hld⟩

/-! ### C4 — percent annotation and its bounds -/

mutual
/-- All file sizes in a subtree are nonnegative — what `os.Stat` guarantees
for real filesystems, taken as an explicit hypothesis here. -/
def nodeNonnegB : FSNode → Bool
  | .file sz => decide (0 ≤ sz)
  | .dir es => entriesNonnegB es

/-- `nodeNonnegB` over a directory listing. -/
def entriesNonnegB : FSEntries → Bool
  | .nil => true
  | .cons _ node rest => nodeNonnegB node && entriesNonnegB rest
end

/-- All cached sizes are nonnegative (the program only ever stores results of
`calculateFullDirSize`, which are nonnegative on a nonnegative filesystem). -/
def cacheNonnegB (c : Cache) : Bool := c.all (fun pr => decide (0 ≤ pr.2))

mutual
theorem calc_nonneg : ∀ t : FSNode, nodeNonnegB t = true → 0 ≤ calculateFullDirSize t
  | .file _, _ => le_refl 0
  | .dir es, h => calcEntries_nonneg es h

theorem calcEntries_nonneg : ∀ es : FSEntries, entriesNonnegB es = true → 0 ≤ calcEntries es
  | .nil, _ => le_refl 0
  | .cons n node rest, h => by
      rw [entriesNonnegB, Bool.and_eq_true] at h
      have hr := calcEntries_nonneg rest h.2
      have hcontrib : 0 ≤ childContrib n node (calculateFullDirSize node) := by
        by_cases hh : isHidden n
        · simp [childContrib, hh]
        · cases node with
          | file sz => simpa [childContrib, hh] using of_decide_eq_true h.1
          | dir es2 => simpa [childContrib, hh] using calc_nonneg (.dir es2) h.1
      rw [calcEntries]
      omega
end

theorem mem_toList_nonneg : ∀ es : FSEntries, entriesNonnegB es = true →
    ∀ pr ∈ es.toList, nodeNonnegB pr.2 = true
  | .nil, _, pr, hpr => absurd hpr (by rw [FSEntries.toList]; exact (List.not_mem_nil pr))
  | .cons n node rest, h, pr, hpr => by
      rw [entriesNonnegB, Bool.and_eq_true] at h
      rw [FSEntries.toList] at hpr
      rcases List.mem_cons.mp hpr with hpr | hpr
      · subst hpr; exact h.1
      · exact mem_toList_nonneg rest h.2 pr hpr

theorem resolve_nonneg : ∀ (p : Path) (root : FSNode), nodeNonnegB root = true →
    ∀ n, resolve root p = some n → nodeNonnegB n = true := by
  intro p
  induction p with
  | nil =>
      intro root hroot n hn
      have heq : some root = some n := hn
      cases heq
      exact hroot
  | cons comp rest ih =>
      intro root hroot n hn
      cases root with
      | file sz =>
          have heq : (none : Option FSNode) = some n := hn
          cases heq
      | dir es =>
          have hn2 : (match (es.toList.find? (fun e => e.1 = comp)).map (fun e => e.2) with
            | some child => resolve child rest
            | none => none) = some n := hn
          cases hfind : (es.toList.find? (fun e => e.1 = comp)).map (fun e => e.2) with
          | none => rw [hfind] at hn2; cases hn2
          | some child =>
              rw [hfind] at hn2
              rcases Option.map_eq_some'.mp hfind with ⟨pr, hpr, hpr2⟩
              have hmem := List.mem_of_find?_eq_some hpr
              have hchild : nodeNonnegB child = true := by
                rw [← hpr2]
                exact mem_toList_nonneg es hroot pr hmem
              exact ih child hchild n hn2

theorem calcSizeAt_nonneg (root : FSNode) (p : Path) (hroot : nodeNonnegB root = true) :
    0 ≤ calcSizeAt root p := by
  rw [calcSizeAt]
  cases hres : resolve root p with
  | none => exact le_refl 0
  | some n => exact calc_nonneg n (resolve_nonneg p root hroot n hres)

theorem cacheLookup_nonneg : ∀ (c : Cache) (p : Path) (v : Int),
    cacheNonnegB c = true → cacheLookup c p = some v → 0 ≤ v := by
  intro c
  induction c with
  | nil => intro p v _ hl; cases hl
  | cons pr rest ih =>
      intro p v hc hl
      rw [cacheNonnegB, List.all_cons, Bool.and_eq_true] at hc
      rw [cacheLookup] at hl
      by_cases hq : pr.1 = p
      · rw [if_pos hq] at hl
        cases hl
        exact of_decide_eq_true hc.1
      · rw [if_neg hq] at hl
        exact ih p v hc.2 hl

theorem getCachedSize_nonneg (root : FSNode) (c : Cache) (p : Path)
    (hroot : nodeNonnegB root = true) (hc : cacheNonnegB c = true) :
    0 ≤ (getCachedSize root c p).1 ∧ cacheNonnegB (getCachedSize root c p).2.1 = true := by
  rw [getCachedSize]
  cases hl : cacheLookup c p with
  | some v => exact ⟨cacheLookup_nonneg c p v hc hl, hc⟩
  | none =>
      refine ⟨calcSizeAt_nonneg root p hroot, ?_⟩
      rw [cacheNonnegB, List.all_cons, Bool.and_eq_true]
      exact ⟨decide_eq_true (calcSizeAt_nonneg root p hroot), hc⟩

theorem nonHiddenFilesTotal_nonneg : ∀ es : List (String × FSNode),
    (∀ pr ∈ es, nodeNonnegB pr.2 = true) → 0 ≤ nonHiddenFilesTotal es := by
  intro es
  induction es with
  | nil => intro _; exact le_refl 0
  | cons pr rest ih =>
      intro h
      obtain ⟨n, node⟩ := pr
      have hr := ih (fun q hq => h q (List.mem_cons_of_mem _ hq))
      by_cases hh : isHidden n
      · simpa [nonHiddenFilesTotal, hh] using hr
      · cases node with
        | file sz =>
            have h0 : (0 : Int) ≤ sz :=
              of_decide_eq_true (h (n, FSNode.file sz) (List.mem_cons_self _ _))
            simp only [nonHiddenFilesTotal, hh, if_false]
            omega
        | dir es2 => simpa [nonHiddenFilesTotal, hh] using hr

/-- On a nonnegative filesystem with a nonnegative cache, the scanning loop
collects only nonnegative sizes, keeps the cache nonnegative, and its running
total is nonnegative. -/
theorem scanChildren_nonneg (root : FSNode) (path : Path) (level : Int) (sf : Bool)
    (hroot : nodeNonnegB root = true) :
    ∀ (es : List (String × FSNode)) (c : Cache), cacheNonnegB c = true →
    (∀ pr ∈ es, nodeNonnegB pr.2 = true) →
    (∀ x ∈ (scanChildren root path level sf es c).dirs, 0 ≤ x.Size) ∧
    (∀ x ∈ (scanChildren root path level sf es c).files, 0 ≤ x.Size) ∧
    cacheNonnegB (scanChildren root path level sf es c).cache = true := by
  intro es
  induction es with
  | nil =>
      intro c hc _
      rw [scanChildren]
      exact ⟨fun x hx => absurd hx (by simp), fun x hx => absurd hx (by simp), hc⟩
  | cons hd rest ih =>
      intro c hc hes
      obtain ⟨n, node⟩ := hd
      have hrest : ∀ pr ∈ rest, nodeNonnegB pr.2 = true :=
        fun q hq => hes q (List.mem_cons_of_mem _ hq)
      cases hh : isHidden n with
      | true =>
          rw [scanChildren_cons_hidden root path level sf n node rest c hh]
          exact ih c hc hrest
      | false =>
          cases node with
          | dir es2 =>
              rw [scanChildren_cons_dir root path level sf n es2 rest c hh]
              have hg := getCachedSize_nonneg root c (path ++ [n]) hroot hc
              have hrec := ih (getCachedSize root c (path ++ [n])).2.1 hg.2 hrest
              refine ⟨?_, hrec.2.1, hrec.2.2⟩
              intro x hx
              rcases List.mem_cons.mp hx with hx | hx
              · subst hx; simpa using hg.1
              · exact hrec.1 x hx
          | file sz =>
              rw [scanChildren_cons_file root path level sf n sz rest c hh]
              have hrec := ih c hc hrest
              refine ⟨hrec.1, ?_, hrec.2.2⟩
              intro x hx
              rcases List.mem_append.mp hx with hx | hx
              · cases sf with
                | true =>
                    rcases List.mem_singleton.mp (by simpa using hx) with hx
                    subst hx
                    have := hes (n, FSNode.file sz) (List.mem_cons_self _ _)
                    simpa using of_decide_eq_true this
                | false => simp at hx
              · exact hrec.2.1 x hx

/-- C4: children of a successful directory scan (on a nonnegative filesystem
and cache) have percent 0 when the parent total is zero, and otherwise
percent exactly `size / total * 100`, which lies in `[0, 100]`.  Percentages
are modelled in exact rational arithmetic (`float64` rounding aside). -/
theorem scan_percent_bounds (root : FSNode) (p : Path) (l : Int) (sf : Bool) (c : Cache)
    (es : FSEntries) (e : DirEntry) (c2 : Cache)
    (hroot : nodeNonnegB root = true) (hc : cacheNonnegB c = true)
    (hres : resolve root p = some (FSNode.dir es))
    (hs : scanDirectoryWithCache root p l sf c = some (e, c2)) :
    ∀ ch ∈ e.Children,
      (e.Size = 0 → ch.Percent = 0) ∧
      (e.Size ≠ 0 → ch.Percent = (ch.Size : ℚ) / (e.Size : ℚ) * 100 ∧
        0 ≤ ch.Percent ∧ ch.Percent ≤ 100) := by
  rw [scanDirectoryWithCache_dir root p l sf c es hres] at hs
  simp only [Option.some.injEq, Prod.mk.injEq] at hs
  obtain ⟨he, _⟩ := hs
  subst he
  have hnn := scanChildren_nonneg root p l sf hroot es.toList c hc
    (mem_toList_nonneg es (by simpa [nodeNonnegB] using resolve_nonneg p root hroot _ hres))
  have htot := scanChildren_total_eq root p l sf es.toList c
  have hdirs_sum : 0 ≤ ((scanChildren root p l sf es.toList c).dirs.map DirEntry.Size).sum :=
    List.sum_nonneg (by
      intro y hy
      rcases List.mem_map.mp hy with ⟨x, hx, rfl⟩
      exact hnn.1 x hx)
  have hfiles_sum : 0 ≤ ((scanChildren root p l sf es.toList c).files.map DirEntry.Size).sum :=
    List.sum_nonneg (by
      intro y hy
      rcases List.mem_map.mp hy with ⟨x, hx, rfl⟩
      exact hnn.2.1 x hx)
  have hext : (0 : Int) ≤ (if sf then 0 else nonHiddenFilesTotal es.toList) := by
    by_cases hsf : sf
    · rw [if_pos hsf]
    · rw [if_neg hsf]
      exact nonHiddenFilesTotal_nonneg es.toList
        (mem_toList_nonneg es (by simpa [nodeNonnegB] using resolve_nonneg p root hroot _ hres))
  -- every collected child's size is bounded by the total
  have hbound : ∀ x, (x ∈ (scanChildren root p l sf es.toList c).dirs ∨
      x ∈ (scanChildren root p l sf es.toList c).files) →
      x.Size ≤ (scanChildren root p l sf es.toList c).total := by
    intro x hx
    rcases hx with hx | hx
    · have hone : x.Size ≤ ((scanChildren root p l sf es.toList c).dirs.map DirEntry.Size).sum :=
        List.single_le_sum (by
          intro y hy
          rcases List.mem_map.mp hy with ⟨z, hz, rfl⟩
          exact hnn.1 z hz) _ (List.mem_map_of_mem DirEntry.Size hx)
      omega
    · have hone : x.Size ≤ ((scanChildren root p l sf es.toList c).files.map DirEntry.Size).sum :=
        List.single_le_sum (by
          intro y hy
          rcases List.mem_map.mp hy with ⟨z, hz, rfl⟩
          exact hnn.2.1 z hz) _ (List.mem_map_of_mem DirEntry.Size hx)
      omega
  intro ch hch
  rw [DirEntry.Size_mk, DirEntry.Children_mk] at *
  by_cases ht : 0 < (scanChildren root p l sf es.toList c).total
  · rw [if_pos ht] at hch
    rcases List.mem_map.mp hch with ⟨ch0, hch0, rfl⟩
    have hch0m : ch0 ∈ (scanChildren root p l sf es.toList c).dirs ∨
        ch0 ∈ (scanChildren root p l sf es.toList c).files := by
      rcases List.mem_append.mp hch0 with h | h
      · exact Or.inl (mem_sortBySizeDesc.mp h)
      · exact Or.inr (mem_sortBySizeDesc.mp h)
    have hsz0 : 0 ≤ ch0.Size := by
      rcases hch0m with h | h
      · exact hnn.1 ch0 h
      · exact hnn.2.1 ch0 h
    have hszT : ch0.Size ≤ (scanChildren root p l sf es.toList c).total := hbound ch0 hch0m
    constructor
    · intro h0; omega
    · intro _
      have hTpos : (0 : ℚ) < ((scanChildren root p l sf es.toList c).total : ℚ) := by
        exact_mod_cast ht
      have hszq : (0 : ℚ) ≤ (ch0.Size : ℚ) := by exact_mod_cast hsz0
      have hleq : (ch0.Size : ℚ) ≤ ((scanChildren root p l sf es.toList c).total : ℚ) := by
        exact_mod_cast hszT
      refine ⟨by simp, ?_, ?_⟩
      · rw [Percent_setPercent]
        positivity
      · rw [Percent_setPercent]
        have hdiv : (ch0.Size : ℚ) / ((scanChildren root p l sf es.toList c).total : ℚ) ≤ 1 :=
          (div_le_one hTpos).mpr hleq
        nlinarith
  · rw [if_neg ht] at hch
    have hchm : ch ∈ (scanChildren root p l sf es.toList c).dirs ∨
        ch ∈ (scanChildren root p l sf es.toList c).files := by
      rcases List.mem_append.mp hch with h | h
      · exact Or.inl (mem_sortBySizeDesc.mp h)
      · exact Or.inr (mem_sortBySizeDesc.mp h)
    have hp0 : ch.Percent = 0 := by
      rcases hchm with h | h
      · exact ((scanChildren_mem root p l sf es.toList c).1 ch h).2.2.1
      · exact ((scanChildren_mem root p l sf es.toList c).2 ch h).2.2.1
    exact ⟨fun _ => hp0, fun hne => absurd (by omega : (scanChildren root p l sf es.toList c).total = 0) hne⟩

/-- Witness for C4 at the concrete filesystem `sampleFS`. -/
theorem scan_percent_bounds_witness :
    nodeNonnegB sampleFS = true ∧ cacheNonnegB [] = true ∧
    resolve sampleFS [] = some (FSNode.dir sampleFSEntries) ∧
    scanDirectoryWithCache sampleFS [] 0 true [] = some (wEntry, wCache) ∧
    ∀ ch ∈ wEntry.Children,
      (wEntry.Size = 0 → ch.Percent = 0) ∧
      (wEntry.Size ≠ 0 → ch.Percent = (ch.Size : ℚ) / (wEntry.Size : ℚ) * 100 ∧
        0 ≤ ch.Percent ∧ ch.Percent ≤ 100) :=
  ⟨by decide, by decide, rfl, rfl,
    scan_percent_bounds sampleFS [] 0 true [] sampleFSEntries wEntry wCache
      (by decide) (by decide) rfl rfl⟩

/-! ### C5 — cache idempotence -/

/-- C5: for every path `p`, two consecutive `getCachedSize` calls with no
filesystem mutation in between return the same value; the second call
performs no traversal and does not change the cache; across the two calls
the recursive traversal runs at most once; after the first call the entry
for `p` is present and no later call (for any path) invalidates or
recomputes it. -/
theorem getCachedSize_idempotent (root : FSNode) (c : Cache) (p : Path) :
    (getCachedSize root (getCachedSize root c p).2.1 p).1 = (getCachedSize root c p).1 ∧
    (getCachedSize root (getCachedSize root c p).2.1 p).2.1 = (getCachedSize root c p).2.1 ∧
    (getCachedSize root (getCachedSize root c p).2.1 p).2.2 = 0 ∧
    (getCachedSize root c p).2.2 + (getCachedSize root (getCachedSize root c p).2.1 p).2.2 ≤ 1 ∧
    cacheLookup (getCachedSize root c p).2.1 p = some (getCachedSize root c p).1 ∧
    ∀ q, cacheLookup (getCachedSize root (getCachedSize root c p).2.1 q).2.1 p =
      some (getCachedSize root c p).1 := by
  cases h : cacheLookup c p with
  | some v =>
      refine ⟨by simp [getCachedSize, h], by simp [getCachedSize, h],
        by simp [getCachedSize, h], by simp [getCachedSize, h],
        by simp [getCachedSize, h], ?_⟩
      have hv : (getCachedSize root c p).1 = v := by simp [getCachedSize, h]
      have hc : (getCachedSize root c p).2.1 = c := by simp [getCachedSize, h]
      rw [hv, hc]
      exact fun q => cacheLookup_getCachedSize root c p q v h
  | none =>
      have hlook : cacheLookup ((p, calcSizeAt root p) :: c) p = some (calcSizeAt root p) := by
        simp [cacheLookup]
      refine ⟨by simp [getCachedSize, h, hlook], by simp [getCachedSize, h, hlook],
        by simp [getCachedSize, h, hlook], by simp [getCachedSize, h, hlook],
        by simp [getCachedSize, h, hlook], ?_⟩
      have h1 : (getCachedSize root c p).2.1 = (p, calcSizeAt root p) :: c := by
        simp [getCachedSize, h]
      have h2 : (getCachedSize root c p).1 = calcSizeAt root p := by
        simp [getCachedSize, h]
      rw [h1, h2]
      exact fun q => cacheLookup_getCachedSize root _ p q _ hlook

/-! ### C9 — input is ignored while loading -/

/-- C9: while `Loading` is set, a key message leaves the whole model (and in
particular root, visible list, cursor and scroll) unchanged; `"q"` and
`"ctrl+c"` return the quit command, every other key returns no command (so
no new load request is issued). -/
theorem update_key_while_loading (m : Model) (hl : m.Loading = true) (s : String) :
    update m (Msg.key s) =
      (m, if s = "q" ∨ s = "ctrl+c" then Cmd.quit else Cmd.none) := by
  unfold update
  rw [hl]
  by_cases h : s = "q" ∨ s = "ctrl+c" <;> simp [h]

/-- Witness for C9 at a concrete loading model and the keys `"down"`, `"q"`. -/
theorem update_key_while_loading_witness :
    { sampleModel with Loading := true }.Loading = true ∧
    update { sampleModel with Loading := true } (Msg.key "down") =
      ({ sampleModel with Loading := true }, Cmd.none) ∧
    update { sampleModel with Loading := true } (Msg.key "q") =
      ({ sampleModel with Loading := true }, Cmd.quit) := by
  refine ⟨rfl, ?_, ?_⟩
  · have h := update_key_while_loading { sampleModel with Loading := true } rfl "down"
    rwa [if_neg (by decide)] at h
  · have h := update_key_while_loading { sampleModel with Loading := true } rfl "q"
    rwa [if_pos (by decide)] at h

/-! ### C10 — the synthetic parent entry -/

/-- C10: provided no child of the root is hidden-named (which holds for every
scanned listing, since hidden names are filtered out), the visible list
contains a `".."` entry exactly when the active root is not the filesystem
root, and in that case it sits at index 0 with `IsDir` true, path the parent
of the root's path, and size and percent both 0. -/
theorem visible_parent_entry (m : Model)
    (hnh : ∀ ch ∈ m.RootDir.Children, isHidden ch.Name = false) :
    ((∃ e ∈ (updateVisibleDirs m).VisibleDirs, e.Name = "..") ↔ m.RootDir.Path ≠ []) ∧
    (m.RootDir.Path ≠ [] →
      (updateVisibleDirs m).VisibleDirs.head? =
        some (DirEntry.mk ".." (pdir m.RootDir.Path) 0 0 [] true 0)) := by
  have hcase := pdir_eq_self_iff m.RootDir.Path
  by_cases hroot : m.RootDir.Path = []
  · have hpd : pdir m.RootDir.Path = m.RootDir.Path := hcase.mpr hroot
    constructor
    · constructor
      · rintro ⟨e, he, hname⟩
        exfalso
        rw [updateVisibleDirs] at he
        simp only [hpd] at he
        simp only [ne_eq, not_true_eq_false, if_false, List.nil_append] at he
        have hmem : e ∈ m.RootDir.Children := (List.mem_filter.mp he).1
        have := hnh e hmem
        rw [hname] at this
        exact absurd this (by decide)
      · intro h; exact absurd hroot h
    · intro h; exact absurd hroot h
  · have hpd : pdir m.RootDir.Path ≠ m.RootDir.Path := fun h => hroot (hcase.mp h)
    constructor
    · constructor
      · intro _; exact hroot
      · intro _
        refine ⟨DirEntry.mk ".." (pdir m.RootDir.Path) 0 0 [] true 0, ?_, rfl⟩
        rw [updateVisibleDirs]
        simp [hpd]
    · intro _
      rw [updateVisibleDirs]
      simp [hpd]

/-- Witness for C10: a model whose root `["r"]` has one non-hidden child. -/
theorem visible_parent_entry_witness :
    (∀ ch ∈ sampleModel.RootDir.Children, isHidden ch.Name = false) ∧
    ((∃ e ∈ (updateVisibleDirs sampleModel).VisibleDirs, e.Name = "..") ↔
      sampleModel.RootDir.Path ≠ []) ∧
    (updateVisibleDirs sampleModel).VisibleDirs.head? =
      some (DirEntry.mk ".." (pdir sampleModel.RootDir.Path) 0 0 [] true 0) := by
  have hnh : ∀ ch ∈ sampleModel.RootDir.Children, isHidden ch.Name = false := by
    intro ch hch
    have hce : ch = sampleEntry := by simpa [sampleModel] using hch
    subst hce
    decide
  have h := visible_parent_entry sampleModel hnh
  exact ⟨hnh, h.1, h.2 (by simp [sampleModel])⟩

/-! ### C6 — page moves (corrected: the step is `Height - 2`, not `Height`) -/

@[simp] theorem ensureCursorVisible_CursorPos (m : Model) :
    (ensureCursorVisible m).CursorPos = m.CursorPos := by
  rw [ensureCursorVisible]
  split <;> rfl

@[simp] theorem ensureCursorVisible_VisibleDirs (m : Model) :
    (ensureCursorVisible m).VisibleDirs = m.VisibleDirs := by
  rw [ensureCursorVisible]
  split <;> rfl

@[simp] theorem ensureCursorVisible_Height (m : Model) :
    (ensureCursorVisible m).Height = m.Height := by
  rw [ensureCursorVisible]
  split <;> rfl

@[simp] theorem ensureCursorVisible_Loading (m : Model) :
    (ensureCursorVisible m).Loading = m.Loading := by
  rw [ensureCursorVisible]
  split <;> rfl

@[simp] theorem ensureCursorVisible_Error (m : Model) :
    (ensureCursorVisible m).Error = m.Error := by
  rw [ensureCursorVisible]
  split <;> rfl

/-- `update` dispatches keys to `keyUpdate` when not loading. -/
theorem update_key_notLoading (m : Model) (hL : m.Loading = false) (s : String) :
    update m (Msg.key s) = keyUpdate m s := by
  simp [update, hL]

/-- The `"pgdown"` branch of the key dispatch. -/
theorem keyUpdate_pgdown (m : Model) :
    keyUpdate m "pgdown" =
      (ensureCursorVisible { m with CursorPos :=
        if (m.VisibleDirs.length : Int) ≤ m.CursorPos + (m.Height - 2) then
          (m.VisibleDirs.length : Int) - 1
        else m.CursorPos + (m.Height - 2) }, Cmd.none) := by
  rw [keyUpdate, if_neg (by decide), if_neg (by decide), if_neg (by decide),
    if_neg (by decide), if_neg (by decide), if_neg (by decide), if_neg (by decide),
    if_neg (by decide), if_pos (by decide)]

/-- The `"pgup"` branch of the key dispatch. -/
theorem keyUpdate_pgup (m : Model) :
    keyUpdate m "pgup" =
      (ensureCursorVisible { m with CursorPos :=
        if m.CursorPos - (m.Height - 2) < 0 then 0
        else m.CursorPos - (m.Height - 2) }, Cmd.none) := by
  rw [keyUpdate, if_neg (by decide), if_neg (by decide), if_neg (by decide),
    if_neg (by decide), if_neg (by decide), if_neg (by decide), if_neg (by decide),
    if_pos (by decide)]

/-- Model with 20 visible entries and viewport height 10, used to refute C6. -/
def cex6Model : Model where
  RootDir := DirEntry.mk "r" ["r"] 20 100 [] true 0
  CursorPos := 0
  ScrollPos := 0
  VisibleDirs := List.replicate 20 (DirEntry.mk "x" ["r", "x"] 1 0 [] true 1)
  Error := none
  Loading := false
  LoadingPath := []
  SpinnerIdx := 0
  ShowFiles := true
  Height := 10

/-- C6 counterexample: with viewport height 10 and a 20-entry list, page-down
from cursor 0 moves the cursor to 8 = `Height - 2`, not to
10 = `min(cursor + viewportHeight, len - 1)` as the claim states; and on an
empty visible list page-down sets the cursor to -1 instead of leaving it
at 0. -/
theorem pageMove_counterexample :
    (update cex6Model (Msg.key "pgdown")).1.CursorPos = 8 ∧
    (update cex6Model (Msg.key "pgdown")).1.CursorPos ≠
      min (cex6Model.CursorPos + cex6Model.Height)
        ((cex6Model.VisibleDirs.length : Int) - 1) ∧
    (update { cex6Model with VisibleDirs := [] } (Msg.key "pgdown")).1.CursorPos = -1 := by
  refine ⟨?_, ?_, ?_⟩ <;> decide

/-- C6 amended: on a non-empty visible list with the cursor in range and
`Height ≥ 2`, page-down moves the cursor by exactly `Height - 2` rows clamped
to `len - 1`, and page-up by `Height - 2` rows clamped to 0 — the step is
`maxVisible = Height - 2` (viewport height minus the two header rows), not
`viewportHeight` — and both results lie in `[0, len - 1]`.  (On an empty
list, page-up leaves the cursor at 0 but page-down sets it to -1; that case
is excluded here.) -/
theorem pageMove_amended (m : Model) (hL : m.Loading = false)
    (hh : 2 ≤ m.Height) (hne : m.VisibleDirs ≠ [])
    (hc0 : 0 ≤ m.CursorPos) (hc1 : m.CursorPos ≤ (m.VisibleDirs.length : Int) - 1) :
    (update m (Msg.key "pgdown")).1.CursorPos =
      min (m.CursorPos + (m.Height - 2)) ((m.VisibleDirs.length : Int) - 1) ∧
    (update m (Msg.key "pgup")).1.CursorPos = max (m.CursorPos - (m.Height - 2)) 0 ∧
    0 ≤ (update m (Msg.key "pgdown")).1.CursorPos ∧
    (update m (Msg.key "pgdown")).1.CursorPos ≤ (m.VisibleDirs.length : Int) - 1 ∧
    0 ≤ (update m (Msg.key "pgup")).1.CursorPos ∧
    (update m (Msg.key "pgup")).1.CursorPos ≤ (m.VisibleDirs.length : Int) - 1 := by
  have hlen : 0 < (m.VisibleDirs.length : Int) := by
    have := List.length_pos.mpr hne
    exact_mod_cast this
  have hdn : (update m (Msg.key "pgdown")).1.CursorPos =
      if (m.VisibleDirs.length : Int) ≤ m.CursorPos + (m.Height - 2) then
        (m.VisibleDirs.length : Int) - 1
      else m.CursorPos + (m.Height - 2) := by
    rw [update_key_notLoading m hL, keyUpdate_pgdown, ensureCursorVisible_CursorPos]
  have hup : (update m (Msg.key "pgup")).1.CursorPos =
      if m.CursorPos - (m.Height - 2) < 0 then 0 else m.CursorPos - (m.Height - 2) := by
    rw [update_key_notLoading m hL, keyUpdate_pgup, ensureCursorVisible_CursorPos]
  rw [hdn, hup]
  constructor
  · split <;> omega
  constructor
  · split <;> omega
  refine ⟨?_, ?_, ?_, ?_⟩ <;> split <;> omega

/-- Witness for the amended C6 at a concrete model. -/
theorem pageMove_amended_witness :
    (cex6Model.Loading = false ∧ 2 ≤ cex6Model.Height ∧ cex6Model.VisibleDirs ≠ [] ∧
      0 ≤ cex6Model.CursorPos ∧
      cex6Model.CursorPos ≤ (cex6Model.VisibleDirs.length : Int) - 1) ∧
    (update cex6Model (Msg.key "pgdown")).1.CursorPos =
      min (cex6Model.CursorPos + (cex6Model.Height - 2))
        ((cex6Model.VisibleDirs.length : Int) - 1) ∧
    (update cex6Model (Msg.key "pgup")).1.CursorPos =
      max (cex6Model.CursorPos - (cex6Model.Height - 2)) 0 := by
  have hne : cex6Model.VisibleDirs ≠ [] := List.ne_nil_of_length_pos (by decide)
  have h := pageMove_amended cex6Model rfl (by decide) hne (by decide) (by decide)
  exact ⟨⟨rfl, by decide, hne, by decide, by decide⟩, h.1, h.2.1⟩

/-! ### C2 — the viewport invariant -/

/-- `clampScroll` establishes the window bounds whenever at least one row is
visible (`mv ≥ 1`) and the cursor is in range, whatever the incoming scroll. -/
theorem clampScroll_bounds (cursor scroll mv len : Int) (hmv : 1 ≤ mv) (hlen : 1 ≤ len)
    (hc0 : 0 ≤ cursor) (hc1 : cursor ≤ len - 1) :
    0 ≤ clampScroll cursor scroll mv len ∧
    clampScroll cursor scroll mv len ≤ cursor ∧
    cursor < clampScroll cursor scroll mv len + mv := by
  simp only [clampScroll]
  split_ifs <;> omega

/-- The navigation invariant: the viewport shows at least one row
(`Height ≥ 3`) and, when the visible list is non-empty, the cursor is in
range and inside the scrolled window of `maxVisible = Height - 2` rows. -/
def NavInv (m : Model) : Prop :=
  3 ≤ m.Height ∧
  (0 < m.VisibleDirs.length →
    0 ≤ m.CursorPos ∧ m.CursorPos ≤ (m.VisibleDirs.length : Int) - 1 ∧
    m.ScrollPos ≤ m.CursorPos ∧ m.CursorPos ≤ m.ScrollPos + (m.Height - 2) - 1)

instance (m : Model) : Decidable (NavInv m) :=
  inferInstanceAs (Decidable (_ ∧ _))

/-- The restriction the amended C2 needs: window resizes never drop the
height below 3 (header plus at least one row). -/
def MsgOK : Msg → Prop
  | .windowSize h => 3 ≤ h
  | _ => True

instance : ∀ msg : Msg, Decidable (MsgOK msg)
  | .windowSize h => inferInstanceAs (Decidable (3 ≤ h))
  | .loading _ => inferInstanceAs (Decidable True)
  | .loadingComplete _ _ => inferInstanceAs (Decidable True)
  | .spinner => inferInstanceAs (Decidable True)
  | .key _ => inferInstanceAs (Decidable True)

/-- The `"enter"` key never changes the model, only the returned command. -/
theorem enterKey_model (m : Model) : (enterKey m).1 = m := by
  rw [enterKey]
  split_ifs <;> first | rfl | (dsimp only; split_ifs <;> rfl)

/-- `ensureCursorVisible` establishes `NavInv` as soon as the height is big
enough and the cursor is in range on a non-empty list. -/
theorem ensure_NavInv (m : Model) (hh : 3 ≤ m.Height)
    (h : 0 < m.VisibleDirs.length →
      0 ≤ m.CursorPos ∧ m.CursorPos ≤ (m.VisibleDirs.length : Int) - 1) :
    NavInv (ensureCursorVisible m) := by
  constructor
  · rw [ensureCursorVisible_Height]; exact hh
  · intro hne
    rw [ensureCursorVisible_VisibleDirs] at hne
    obtain ⟨hc0, hc1⟩ := h hne
    have hlen1 : (1 : Int) ≤ (m.VisibleDirs.length : Int) := by exact_mod_cast hne
    have hscroll : (ensureCursorVisible m).ScrollPos =
        clampScroll m.CursorPos m.ScrollPos (m.Height - 2) (m.VisibleDirs.length : Int) := by
      rw [ensureCursorVisible, if_neg (by omega)]
    have hb := clampScroll_bounds m.CursorPos m.ScrollPos (m.Height - 2)
      (m.VisibleDirs.length : Int) (by omega) hlen1 hc0 hc1
    rw [ensureCursorVisible_CursorPos, ensureCursorVisible_VisibleDirs,
      ensureCursorVisible_Height, hscroll]
    exact ⟨hc0, hc1, hb.2.1, by omega⟩

/-- Every key press preserves the navigation invariant. -/
theorem keyUpdate_NavInv (m : Model) (hInv : NavInv m) (s : String) :
    NavInv (keyUpdate m s).1 := by
  obtain ⟨hh, hcur⟩ := hInv
  have hm : NavInv m := ⟨hh, hcur⟩
  rw [keyUpdate]
  by_cases h1 : s = "q" ∨ s = "ctrl+c"
  · rw [if_pos h1]; exact hm
  rw [if_neg h1]
  by_cases h2 : s = "up" ∨ s = "k"
  · rw [if_pos h2]
    by_cases hg : 0 < m.CursorPos
    · rw [if_pos hg]
      show NavInv (ensureCursorVisible { m with CursorPos := m.CursorPos - 1 })
      refine ensure_NavInv _ hh (fun hne => ?_)
      have hr := hcur hne
      show 0 ≤ m.CursorPos - 1 ∧ m.CursorPos - 1 ≤ (m.VisibleDirs.length : Int) - 1
      omega
    · rw [if_neg hg]; exact hm
  rw [if_neg h2]
  by_cases h3 : s = "down" ∨ s = "j"
  · rw [if_pos h3]
    by_cases hg : m.CursorPos < (m.VisibleDirs.length : Int) - 1
    · rw [if_pos hg]
      show NavInv (ensureCursorVisible { m with CursorPos := m.CursorPos + 1 })
      refine ensure_NavInv _ hh (fun hne => ?_)
      have hr := hcur hne
      show 0 ≤ m.CursorPos + 1 ∧ m.CursorPos + 1 ≤ (m.VisibleDirs.length : Int) - 1
      omega
    · rw [if_neg hg]; exact hm
  rw [if_neg h3]
  by_cases h4 : s = "enter"
  · rw [if_pos h4, enterKey_model]; exact hm
  rw [if_neg h4]
  by_cases h5 : s = "backspace" ∨ s = "h"
  · rw [if_pos h5]
    by_cases hb : pdir m.RootDir.Path ≠ m.RootDir.Path
    · rw [if_pos hb]; exact hm
    · rw [if_neg hb]; exact hm
  rw [if_neg h5]
  by_cases h6 : s = "home" ∨ s = "g"
  · rw [if_pos h6]
    show NavInv (ensureCursorVisible { m with CursorPos := 0 })
    refine ensure_NavInv _ hh (fun hne => ?_)
    have hlen1 : (1 : Int) ≤ (m.VisibleDirs.length : Int) := by exact_mod_cast hne
    show (0 : Int) ≤ 0 ∧ (0 : Int) ≤ (m.VisibleDirs.length : Int) - 1
    omega
  rw [if_neg h6]
  by_cases h7 : s = "end" ∨ s = "G"
  · rw [if_pos h7]
    by_cases hg : 0 < m.VisibleDirs.length
    · rw [if_pos hg]
      show NavInv (ensureCursorVisible
        { m with CursorPos := (m.VisibleDirs.length : Int) - 1 })
      refine ensure_NavInv _ hh (fun hne => ?_)
      have hlen1 : (1 : Int) ≤ (m.VisibleDirs.length : Int) := by exact_mod_cast hne
      show 0 ≤ (m.VisibleDirs.length : Int) - 1 ∧
        (m.VisibleDirs.length : Int) - 1 ≤ (m.VisibleDirs.length : Int) - 1
      omega
    · rw [if_neg hg]; exact hm
  rw [if_neg h7]
  by_cases h8 : s = "pgup"
  · rw [if_pos h8]
    show NavInv (ensureCursorVisible { m with CursorPos :=
      if m.CursorPos - (m.Height - 2) < 0 then 0 else m.CursorPos - (m.Height - 2) })
    refine ensure_NavInv _ hh (fun hne => ?_)
    have hr := hcur hne
    show 0 ≤ (if m.CursorPos - (m.Height - 2) < 0 then 0 else m.CursorPos - (m.Height - 2)) ∧
      (if m.CursorPos - (m.Height - 2) < 0 then 0 else m.CursorPos - (m.Height - 2)) ≤
        (m.VisibleDirs.length : Int) - 1
    split_ifs <;> omega
  rw [if_neg h8]
  by_cases h9 : s = "pgdown"
  · rw [if_pos h9]
    show NavInv (ensureCursorVisible { m with CursorPos :=
      if (m.VisibleDirs.length : Int) ≤ m.CursorPos + (m.Height - 2) then
        (m.VisibleDirs.length : Int) - 1
      else m.CursorPos + (m.Height - 2) })
    refine ensure_NavInv _ hh (fun hne => ?_)
    have hr := hcur hne
    show 0 ≤ (if (m.VisibleDirs.length : Int) ≤ m.CursorPos + (m.Height - 2) then
        (m.VisibleDirs.length : Int) - 1
      else m.CursorPos + (m.Height - 2)) ∧
      (if (m.VisibleDirs.length : Int) ≤ m.CursorPos + (m.Height - 2) then
        (m.VisibleDirs.length : Int) - 1
      else m.CursorPos + (m.Height - 2)) ≤ (m.VisibleDirs.length : Int) - 1
    split_ifs <;> omega
  rw [if_neg h9]
  exact hm

/-- Every message whose resize height keeps `Height ≥ 3` preserves the
navigation invariant. -/
theorem update_NavInv (m : Model) (hInv : NavInv m) (msg : Msg) (hok : MsgOK msg) :
    NavInv (update m msg).1 := by
  obtain ⟨hh, hcur⟩ := hInv
  have hm : NavInv m := ⟨hh, hcur⟩
  cases msg with
  | windowSize h =>
      exact ensure_NavInv { m with Height := h } hok (fun hne => (hcur hne).imp id And.left)
  | loading p => exact hm
  | loadingComplete dir err =>
      cases err with
      | some e => exact hm
      | none =>
          have key : ∀ X : Model, 0 < X.VisibleDirs.length →
              (0 : Int) ≤ 0 ∧ (0 : Int) ≤ (X.VisibleDirs.length : Int) - 1 := by
            intro X hX
            have h1 : (1 : Int) ≤ (X.VisibleDirs.length : Int) := by exact_mod_cast hX
            omega
          exact ensure_NavInv _ hh (fun hne => key _ hne)
  | spinner =>
      by_cases hl : m.Loading = true
      · have hu : (update m Msg.spinner).1 = { m with SpinnerIdx := (m.SpinnerIdx + 1) % 4 } := by
          simp [update, hl]
        rw [hu]
        exact hm
      · have hl2 : m.Loading = false := by simpa using hl
        have hu : (update m Msg.spinner).1 = m := by simp [update, hl2]
        rw [hu]
        exact hm
  | key s =>
      by_cases hl : m.Loading
      · have : update m (Msg.key s) =
            (m, if s = "q" ∨ s = "ctrl+c" then Cmd.quit else Cmd.none) :=
          update_key_while_loading m hl s
        rw [this]
        exact hm
      · rw [update_key_notLoading m (by simpa using hl) s]
        exact keyUpdate_NavInv m hm s

/-- C2 (amended): for every sequence of operations — cursor moves, page
moves, home/end, resizes, load completions, and any other message — starting
from a state satisfying the invariant, and in which every resize keeps the
viewport height at least 3 (header rows plus one visible row), the viewport
invariant holds after the sequence: whenever the visible list is non-empty,
`scrollOffset ≤ cursor ≤ scrollOffset + maxVisible - 1` with
`maxVisible = Height - 2 > 0`.  Without the height restriction the claim is
false (see the counterexample): a resize below height 2 lets a page move
drive the cursor negative, and the re-application cannot restore
`scrollOffset ≤ cursor` because the scroll is clamped at 0. -/
theorem viewport_invariant (m : Model) (hInv : NavInv m) (msgs : List Msg)
    (hok : ∀ msg ∈ msgs, MsgOK msg) :
    NavInv (applyMsgs m msgs) ∧
    (0 < (applyMsgs m msgs).VisibleDirs.length →
      0 < (applyMsgs m msgs).Height - 2 ∧
      (applyMsgs m msgs).ScrollPos ≤ (applyMsgs m msgs).CursorPos ∧
      (applyMsgs m msgs).CursorPos ≤
        (applyMsgs m msgs).ScrollPos + ((applyMsgs m msgs).Height - 2) - 1) := by
  have main : ∀ (msgs : List Msg) (m : Model), NavInv m → (∀ msg ∈ msgs, MsgOK msg) →
      NavInv (applyMsgs m msgs) := by
    intro msgs
    induction msgs with
    | nil => intro m hm _; exact hm
    | cons msg rest ih =>
        intro m hm hok
        rw [applyMsgs]
        exact ih (update m msg).1
          (update_NavInv m hm msg (hok msg (List.mem_cons_self _ _)))
          (fun q hq => hok q (List.mem_cons_of_mem _ hq))
  have hfin := main msgs m hInv hok
  refine ⟨hfin, fun hne => ?_⟩
  obtain ⟨hh, hcur⟩ := hfin
  have h := hcur hne
  exact ⟨by omega, h.2.2.1, h.2.2.2⟩

/-- Model with two visible entries and a comfortable viewport, the starting
point of the C2 counterexample. -/
def cex2Model : Model where
  RootDir := DirEntry.mk "r" ["r"] 2 100 [] true 0
  CursorPos := 0
  ScrollPos := 0
  VisibleDirs :=
    [DirEntry.mk "x" ["r", "x"] 1 0 [] true 1, DirEntry.mk "y" ["r", "y"] 1 0 [] true 1]
  Error := none
  Loading := false
  LoadingPath := []
  SpinnerIdx := 0
  ShowFiles := true
  Height := 20

/-- C2 counterexample: resize to height 0, page down, resize to height 10.
The page move adds the (negative) `maxVisible = -2` to the cursor, driving it
to -2; the later resize re-applies the scroll rules with `maxVisible = 8 > 0`
on the non-empty list, yet `scrollOffset ≤ cursor` fails (scroll 0, cursor
-2), refuting the claim's "after each operation" invariant as stated. -/
theorem viewport_invariant_counterexample :
    0 < (applyMsgs cex2Model [Msg.windowSize 0, Msg.key "pgdown", Msg.windowSize 10]).Height - 2 ∧
    0 < (applyMsgs cex2Model
        [Msg.windowSize 0, Msg.key "pgdown", Msg.windowSize 10]).VisibleDirs.length ∧
    ¬ ((applyMsgs cex2Model [Msg.windowSize 0, Msg.key "pgdown", Msg.windowSize 10]).ScrollPos ≤
        (applyMsgs cex2Model [Msg.windowSize 0, Msg.key "pgdown", Msg.windowSize 10]).CursorPos) := by
  refine ⟨?_, ?_, ?_⟩ <;> decide

/-- Witness for the amended C2: a concrete run of cursor, page, home/end,
resize and load-completion messages from a concrete valid state. -/
theorem viewport_invariant_witness :
    NavInv cex6Model ∧
    (∀ msg ∈ [Msg.key "pgdown", Msg.windowSize 5, Msg.key "up", Msg.key "end",
        Msg.key "pgup", Msg.windowSize 7, Msg.key "down", Msg.key "home"], MsgOK msg) ∧
    (0 < (applyMsgs cex6Model [Msg.key "pgdown", Msg.windowSize 5, Msg.key "up", Msg.key "end",
        Msg.key "pgup", Msg.windowSize 7, Msg.key "down", Msg.key "home"]).VisibleDirs.length →
      0 < (applyMsgs cex6Model [Msg.key "pgdown", Msg.windowSize 5, Msg.key "up", Msg.key "end",
          Msg.key "pgup", Msg.windowSize 7, Msg.key "down", Msg.key "home"]).Height - 2 ∧
      (applyMsgs cex6Model [Msg.key "pgdown", Msg.windowSize 5, Msg.key "up", Msg.key "end",
          Msg.key "pgup", Msg.windowSize 7, Msg.key "down", Msg.key "home"]).ScrollPos ≤
        (applyMsgs cex6Model [Msg.key "pgdown", Msg.windowSize 5, Msg.key "up", Msg.key "end",
          Msg.key "pgup", Msg.windowSize 7, Msg.key "down", Msg.key "home"]).CursorPos ∧
      (applyMsgs cex6Model [Msg.key "pgdown", Msg.windowSize 5, Msg.key "up", Msg.key "end",
          Msg.key "pgup", Msg.windowSize 7, Msg.key "down", Msg.key "home"]).CursorPos ≤
        (applyMsgs cex6Model [Msg.key "pgdown", Msg.windowSize 5, Msg.key "up", Msg.key "end",
          Msg.key "pgup", Msg.windowSize 7, Msg.key "down", Msg.key "home"]).ScrollPos +
          ((applyMsgs cex6Model [Msg.key "pgdown", Msg.windowSize 5, Msg.key "up", Msg.key "end",
            Msg.key "pgup", Msg.windowSize 7, Msg.key "down", Msg.key "home"]).Height - 2) - 1) := by
  refine ⟨by decide, by decide, ?_⟩
  exact (viewport_invariant cex6Model (by decide)
    [Msg.key "pgdown", Msg.windowSize 5, Msg.key "up", Msg.key "end",
      Msg.key "pgup", Msg.windowSize 7, Msg.key "down", Msg.key "home"] (by decide)).2

/-! ### C7 — the error display survives a successful reload (code bug) -/

/-- A model currently displaying an error. -/
def cex7Model : Model := { sampleModel with Error := some "boom" }

/-- The root produced by the user's follow-up (successful) load request. -/
def cex7NewRoot : DirEntry :=
  DirEntry.mk "d" ["d"] 7 100 [DirEntry.mk "f" ["d", "f"] 7 100 [] false 1] true 0

/-- C7 (code bug): from an error display, a fresh load request starts
(`Loading` goes true) and a successful completion updates the root and ends
the loading state — but `Update` never clears `m.Error`, so `View` still
renders the error screen instead of the listing. -/
theorem error_screen_after_successful_reload :
    (update (update cex7Model (Msg.loading ["d"])).1
        (Msg.loadingComplete cex7NewRoot none)).1.Error = some "boom" ∧
    (view (update (update cex7Model (Msg.loading ["d"])).1
        (Msg.loadingComplete cex7NewRoot none)).1).shownError = some "boom" ∧
    (update (update cex7Model (Msg.loading ["d"])).1
        (Msg.loadingComplete cex7NewRoot none)).1.Loading = false ∧
    (update (update cex7Model (Msg.loading ["d"])).1
        (Msg.loadingComplete cex7NewRoot none)).1.RootDir.Path = ["d"] := by
  refine ⟨?_, ?_, ?_, ?_⟩ <;> decide

end Usage
